import Mathlib

/-!
Verification of the offline-first synchronization core (js/config.js,
js/offline-queue.js, js/db.js).

A shallow embedding: the mutable browser state (the IndexedDB `tasks`
store, the IndexedDB `syncQueue` store, the in-memory tombstone set
`locallyDeletedTaskIds`, the flags `isOnline` / `isSyncing` /
`firebaseDb`) is passed explicitly; asynchronous remote calls are
resolved by an oracle giving each queue entry's success or failure;
`window.dispatchEvent(new CustomEvent(...))` emissions are collected in
a list.  Timestamps (`updated_at`, compared in the source through
`new Date(...)`) are modelled as natural numbers (milliseconds).
-/

namespace Sync

/-- A task record: `id` plus the `updated_at` timestamp the reconciler
compares; other mutable fields are abstracted into `payload`. -/
structure Task where
  id : String
  updatedAt : Nat
  payload : String
deriving Repr, DecidableEq

/-- Lookup in a keyed store represented as a list, with the
last-entry-wins semantics of `localTasks.forEach(t => localMap[t.id] = t)`
(for a store produced by IndexedDB the ids are unique, so any match is
the unique one). -/
def storeGet : List Task → String → Option Task
  | [], _ => none
  | t :: ts, i =>
      match storeGet ts i with
      | some u => some u
      | none => if t.id = i then some t else none

/-- Model of `DB.addTask` (`store.put(task)` keyed by `id`): replace the record
with the same id, or append. -/
def dbPut (s : List Task) (t : Task) : List Task :=
  if s.any (fun u => u.id = t.id) then
    s.map (fun u => if u.id = t.id then t else u)
  else s ++ [t]

/-- Model of `DB.deleteTask` (`store.delete(taskId)`). -/
def dbDelete (s : List Task) (i : String) : List Task :=
  s.filter (fun u => u.id ≠ i)

/-- One local-store effect issued by `mergeCloudTasks` while it runs:
a `DB.addTask` call or a `DB.deleteTask` call. -/
inductive MergeEff where
  | upsert (t : Task)
  | del (i : String)
deriving Repr, DecidableEq

/-- The id an effect writes to. -/
def MergeEff.target : MergeEff → String
  | .upsert t => t.id
  | .del i => i

/-- The sequence of `DB.addTask` / `DB.deleteTask` calls issued by
`mergeCloudTasks(cloudTasks)` (config.js:172-235).  Both loops of the
source consult only the snapshots taken before any write (`localMap`,
`localTasks`, `cloudTaskIds`), so the merge is exactly this effect list
applied in order.  First loop, per cloud task in order: skip ids in
`locallyDeletedTaskIds`; add when absent locally; overwrite when the
cloud `updated_at` is strictly greater.  Second loop, per original
local task: delete when its id is absent from the cloud snapshot. -/
def mergeEffects (tomb : List String) (lcl : List Task) (cloud : List Task) :
    List MergeEff :=
  cloud.filterMap (fun c =>
    if tomb.contains c.id then none
    else
      match storeGet lcl c.id with
      | none => some (.upsert c)
      | some l => if l.updatedAt < c.updatedAt then some (.upsert c) else none)
  ++ lcl.filterMap (fun l =>
    if cloud.any (fun c => c.id = l.id) then none else some (.del l.id))

/-- Apply one staged effect to the local store. -/
def applyEff (s : List Task) : MergeEff → List Task
  | .upsert t => dbPut s t
  | .del i => dbDelete s i

/-- Model of `mergeCloudTasks`: the local `tasks` store after the merge. -/
def mergeCloudTasks (tomb : List String) (lcl : List Task)
    (cloud : List Task) : List Task :=
  (mergeEffects tomb lcl cloud).foldl applyEff lcl

/-- Kind of a pending operation: the source's `type` strings
`'save'` and `'delete'`. -/
inductive OpType where
  | save
  | delete
deriving Repr, DecidableEq

/-- A pending operation as handed to `OfflineQueue.addOperation`
(config.js:256-261): `{type, taskId, task, timestamp}`.  `task` is
`null` for deletes. -/
structure Operation where
  type : OpType
  taskId : String
  task : Option Task
  timestamp : Nat
deriving Repr, DecidableEq

/-- A row of the `syncQueue` IndexedDB store: the operation plus the
auto-incremented key `id` assigned by `store.add`
(db.js:44 creates the store with `keyPath: 'id', autoIncrement: true`). -/
structure QueueEntry where
  id : Nat
  op : Operation
deriving Repr, DecidableEq

/-- The `syncQueue` store as seen by offline-queue.js: `dbOpen` models
whether the module-level `db` handle is non-null, `entries` the rows in
key order, `nextId` the auto-increment counter.  I/O of an open store is
modelled as succeeding; the embedding captures the module's own control
flow. -/
structure QueueStore where
  dbOpen : Bool
  entries : List QueueEntry
  nextId : Nat
deriving Repr, DecidableEq

/-- Model of `OfflineQueue.addOperation` (offline-queue.js:49-68): throws when
`db` is null, otherwise durably appends the row under a fresh
auto-incremented key and resolves with that key. -/
def addOperation (q : QueueStore) (op : Operation) :
    Except String (QueueStore × Nat) :=
  if q.dbOpen then
    .ok ({ q with entries := q.entries ++ [⟨q.nextId, op⟩],
                  nextId := q.nextId + 1 }, q.nextId)
  else .error "Queue store not ready"

/-- Model of `OfflineQueue.getAllOperations` (offline-queue.js:74-90): resolves
`[]` when `db` is null, otherwise `store.getAll()` — the rows in
ascending key order. -/
def getAllOperations (q : QueueStore) : List QueueEntry :=
  if q.dbOpen then q.entries else []

/-- Model of `OfflineQueue.removeOperation` (offline-queue.js:96-112): resolves
as a no-op when `db` is null, otherwise deletes the row with the given
key. -/
def removeOperation (q : QueueStore) (opId : Nat) : QueueStore :=
  if q.dbOpen then { q with entries := q.entries.filter (fun e => e.id ≠ opId) }
  else q

/-- Model of `OfflineQueue.clear` (offline-queue.js:117-133): resolves as a
no-op when `db` is null, otherwise empties the store. -/
def clear (q : QueueStore) : QueueStore :=
  if q.dbOpen then { q with entries := [] } else q

/-- Model of `OfflineQueue.getCount` (offline-queue.js:138-141). -/
def getCount (q : QueueStore) : Nat :=
  (getAllOperations q).length

/-- The lifecycle events the engine dispatches (config.js:41-47),
with their payloads. -/
inductive SyncEvent where
  | syncStarted
  | syncCompleted (count : Nat)
  | syncError (msg : String)
  | statusChanged (online : Bool)
  | tasksSynced
deriving Repr, DecidableEq

/-- The mutable state of `SyncEngine` relevant to queueing and replay:
`isOnline`, `isSyncing`, whether `firebaseDb` is non-null, the
`locallyDeletedTaskIds` set (as a list of ids), and the queue store. -/
structure EngineState where
  isOnline : Bool
  isSyncing : Bool
  firebaseReady : Bool
  tombstones : List String
  queue : QueueStore
deriving Repr, DecidableEq

/-- Model of `Set.add` on `locallyDeletedTaskIds`. -/
def tombAdd (i : String) (tomb : List String) : List String :=
  if tomb.contains i then tomb else i :: tomb

/-- Model of `Set.delete` on `locallyDeletedTaskIds`. -/
def tombErase (i : String) (tomb : List String) : List String :=
  tomb.filter (fun x => x ≠ i)

/-- Outcome of the durable-enqueue phase of `queueOperation`
(config.js:245-276): the updated tombstone set and queue store, the
events dispatched, and the promise outcome seen by the awaiting caller.
The source wraps the body in try/catch, so the call always resolves;
an `addOperation` failure is turned into a `sync:error` event. -/
structure EnqueueResult where
  tombstones : List String
  queue : QueueStore
  events : List SyncEvent
  outcome : Except String Unit
deriving Repr

/-- Model of `SyncEngine.queueOperation(type, taskId, task)` up to its durable
effects: for a delete, first add the id to `locallyDeletedTaskIds`
(before the enqueue, so it stays even if the enqueue throws); then
`await OfflineQueue.addOperation({type, taskId, task, timestamp})`.
The subsequent `processQueue()` trigger when online is fire-and-forget
(not awaited) and is modelled separately as `processQueue`. -/
def queueOperation (tomb : List String) (q : QueueStore) (ty : OpType)
    (taskId : String) (task : Option Task) (now : Nat) : EnqueueResult :=
  let tomb1 := if ty = .delete then tombAdd taskId tomb else tomb
  match addOperation q ⟨ty, taskId, task, now⟩ with
  | .ok (q1, _) => ⟨tomb1, q1, [], .ok ()⟩
  | .error m => ⟨tomb1, q, [.syncError m], .ok ()⟩

/-- A remote call attempted during a replay pass:
`firebaseDb.ref('tasks/' + id).set(task)` or `.remove()`. -/
inductive RemoteCall where
  | write (t : Task)
  | remove (taskId : String)
deriving Repr, DecidableEq

/-- Model of `syncTaskToCloud(task)` (config.js:349-372) with the remote
outcome `ok` supplied by the oracle: resolves silently when
`firebaseDb` is null (skip, no remote call); rejects when the save
entry carries no task (`task.id` on null throws before any call);
otherwise performs the write and resolves or rejects per the remote.
Returns the promise outcome and the remote calls actually issued. -/
def syncTaskToCloud (fb : Bool) (ok : Bool) (task : Option Task) :
    Except String Unit × List RemoteCall :=
  if fb then
    match task with
    | none => (.error "TypeError", [])
    | some t => (if ok then .ok () else .error "write failed", [.write t])
  else (.ok (), [])

/-- Model of `deleteTaskFromCloud(taskId)` (config.js:377-403) with the remote
outcome `ok`: resolves silently when `firebaseDb` is null (skip);
otherwise issues the remove and, on success, erases the id from
`locallyDeletedTaskIds` before resolving.  Returns the outcome
(carrying the updated tombstone set) and the remote calls issued. -/
def deleteTaskFromCloud (fb : Bool) (ok : Bool) (tomb : List String)
    (taskId : String) : Except String (List String) × List RemoteCall :=
  if fb then
    (if ok then .ok (tombErase taskId tomb) else .error "remove failed",
     [.remove taskId])
  else (.ok tomb, [])

/-- One iteration of the `for (const operation of operations)` loop of
`processQueue` (config.js:313-329): attempt the remote call; on success
remove the entry from the queue (and, inside `deleteTaskFromCloud`,
erase the tombstone for a delete); on failure leave everything intact
and continue. -/
def runOp (oracle : Nat → Bool) (st : EngineState) (e : QueueEntry) :
    EngineState × List RemoteCall :=
  match e.op.type with
  | .save =>
      match syncTaskToCloud st.firebaseReady (oracle e.id) e.op.task with
      | (.ok _, cs) => ({ st with queue := removeOperation st.queue e.id }, cs)
      | (.error _, cs) => (st, cs)
  | .delete =>
      match deleteTaskFromCloud st.firebaseReady (oracle e.id)
          st.tombstones e.op.taskId with
      | (.ok tomb1, cs) =>
          ({ st with tombstones := tomb1,
                     queue := removeOperation st.queue e.id }, cs)
      | (.error _, cs) => (st, cs)

/-- The whole loop over the snapshot taken by `getAllOperations`,
collecting the attempted remote calls in order. -/
def runAll (oracle : Nat → Bool) (st : EngineState) :
    List QueueEntry → EngineState × List RemoteCall
  | [] => (st, [])
  | e :: es =>
      let r1 := runOp oracle st e
      let r2 := runAll oracle r1.1 es
      (r2.1, r1.2 ++ r2.2)

/-- Result of one `processQueue()` invocation: final engine state,
events dispatched, remote calls attempted in order. -/
structure PassResult where
  state : EngineState
  events : List SyncEvent
  calls : List RemoteCall
deriving Repr, DecidableEq

/-- Model of `SyncEngine.processQueue` (config.js:282-344): return immediately
when offline, when a pass is already in flight (`isSyncing`), or when
`firebaseDb` is null; otherwise set `isSyncing`, emit `sync:started`,
read the queue snapshot once, drain it front to back, clear
`isSyncing`, and emit `sync:completed` with the remaining count. -/
def processQueue (st : EngineState) (oracle : Nat → Bool) : PassResult :=
  if !st.isOnline then ⟨st, [], []⟩
  else if st.isSyncing then ⟨st, [], []⟩
  else if !st.firebaseReady then ⟨st, [], []⟩
  else
    let st1 := { st with isSyncing := true }
    let ops := getAllOperations st1.queue
    if ops.isEmpty then
      ⟨{ st1 with isSyncing := false },
       [.syncStarted, .syncCompleted 0], []⟩
    else
      let r := runAll oracle st1 ops
      ⟨{ r.1 with isSyncing := false },
       [.syncStarted, .syncCompleted (getCount r.1.queue)], r.2⟩

/-- Enqueue a list of operations in sequence through `addOperation`
(an error leaves the store unchanged; on an open store errors do not
occur). -/
def enqueueAll (q : QueueStore) : List Operation → QueueStore
  | [] => q
  | op :: ops =>
      match addOperation q op with
      | .ok (q1, _) => enqueueAll q1 ops
      | .error _ => enqueueAll q ops

/-- Rows assigned to a run of enqueues starting at key `n`. -/
def numberFrom (n : Nat) : List Operation → List QueueEntry
  | [] => []
  | op :: ops => ⟨n, op⟩ :: numberFrom (n + 1) ops

/-- The remote call an operation gives rise to when attempted with
`firebaseDb` available (`none` for a save whose payload is missing:
there the body throws before reaching the remote). -/
def opCall (op : Operation) : Option RemoteCall :=
  match op.type with
  | .save => op.task.map RemoteCall.write
  | .delete => some (.remove op.taskId)

/-- Whether the pass confirms entry `e` against the remote (with
`firebaseDb` available): the oracle grants it and, for a save, the
payload is present. -/
def opSucceeds (oracle : Nat → Bool) (e : QueueEntry) : Bool :=
  match e.op.type with
  | .save => e.op.task.isSome && oracle e.id
  | .delete => oracle e.id

/-- An input to the network monitor: a platform `online`/`offline`
window event, or one firing of the 5-second `checkConnection` timer
together with the `navigator.onLine` value it samples. -/
inductive NetInput where
  | platformOnline
  | platformOffline
  | tick (navOnLine : Bool)
deriving Repr, DecidableEq

/-- One step of the listeners installed by `initNetworkListeners`
(config.js:446-476).  A platform event unconditionally sets `isOnline`
and emits `sync:status-changed`.  `checkConnection` compares the
sampled `navigator.onLine` with `isOnline`; on disagreement it sets
`isOnline` and synchronously dispatches the matching platform event,
whose handler re-sets the flag and emits — net effect one
notification; on agreement it does nothing. -/
def netStep (isOnline : Bool) : NetInput → Bool × List SyncEvent
  | .platformOnline => (true, [.statusChanged true])
  | .platformOffline => (false, [.statusChanged false])
  | .tick b => if b = isOnline then (isOnline, []) else (b, [.statusChanged b])

/-- Run the monitor over a sequence of inputs, concatenating the
emitted events. -/
def netRun (isOnline : Bool) : List NetInput → Bool × List SyncEvent
  | [] => (isOnline, [])
  | i :: is =>
      let r1 := netStep isOnline i
      let r2 := netRun r1.1 is
      (r2.1, r1.2 ++ r2.2)

/-- The `online` payloads of the `sync:status-changed` notifications in
an event stream. -/
def statusVals (evs : List SyncEvent) : List Bool :=
  evs.filterMap (fun e =>
    match e with
    | .statusChanged b => some b
    | _ => none)

/-- An input sequence is proper for a start state when every platform
event reports a state different from the monitor's current one, i.e.
the platform fires its events only on genuine transitions (ticks are
unconstrained). -/
def properInputs (isOnline : Bool) : List NetInput → Bool
  | [] => true
  | .platformOnline :: is => !isOnline && properInputs true is
  | .platformOffline :: is => isOnline && properInputs false is
  | .tick b :: is => properInputs b is

/-! ### Lemmas about the local store and the merge -/

theorem storeGet_map_overwrite {t : Task} {i : String} (h : t.id ≠ i)
    (s : List Task) :
    storeGet (s.map (fun u => if u.id = t.id then t else u)) i = storeGet s i := by
  induction s with
  | nil => rfl
  | cons a s ih =>
      simp only [List.map_cons, storeGet, ih]
      cases storeGet s i with
      | some u => rfl
      | none =>
          by_cases ha : a.id = t.id
          · have ha' : a.id ≠ i := ha ▸ h
            simp [ha, h, ha']
          · simp [ha]

theorem storeGet_append_single {t : Task} {i : String} (h : t.id ≠ i)
    (s : List Task) :
    storeGet (s ++ [t]) i = storeGet s i := by
  induction s with
  | nil => simp [storeGet, h]
  | cons a s ih =>
      show (match storeGet (s ++ [t]) i with
            | some u => some u
            | none => if a.id = i then some a else none) =
          (match storeGet s i with
            | some u => some u
            | none => if a.id = i then some a else none)
      rw [ih]

theorem storeGet_dbPut_ne {t : Task} {i : String} (h : t.id ≠ i)
    (s : List Task) : storeGet (dbPut s t) i = storeGet s i := by
  unfold dbPut
  by_cases hb : s.any (fun u => u.id = t.id)
  · simp only [hb, if_true, storeGet_map_overwrite h]
  · simp only [hb]
    simp [storeGet_append_single h]

theorem storeGet_dbDelete_ne {j i : String} (h : j ≠ i) (s : List Task) :
    storeGet (dbDelete s j) i = storeGet s i := by
  induction s with
  | nil => rfl
  | cons a s ih =>
      by_cases ha : a.id = j
      · have ha' : a.id ≠ i := by rw [ha]; exact h
        rw [show dbDelete (a :: s) j = dbDelete s j from by
          simp [dbDelete, List.filter_cons, ha]]
        rw [ih]
        cases hsg : storeGet s i with
        | some u => simp [storeGet, hsg]
        | none => simp [storeGet, hsg, ha']
      · rw [show dbDelete (a :: s) j = a :: dbDelete s j from by
          simp [dbDelete, List.filter_cons, ha]]
        show (match storeGet (dbDelete s j) i with
              | some u => some u
              | none => if a.id = i then some a else none) =
            (match storeGet s i with
              | some u => some u
              | none => if a.id = i then some a else none)
        rw [ih]

theorem storeGet_applyEff_ne {e : MergeEff} {i : String}
    (h : e.target ≠ i) (s : List Task) :
    storeGet (applyEff s e) i = storeGet s i := by
  cases e with
  | upsert t => exact storeGet_dbPut_ne h s
  | del j => exact storeGet_dbDelete_ne h s

theorem storeGet_foldl_untouched {i : String} (effs : List MergeEff)
    (h : ∀ e ∈ effs, e.target ≠ i) (s : List Task) :
    storeGet (effs.foldl applyEff s) i = storeGet s i := by
  induction effs generalizing s with
  | nil => rfl
  | cons e effs ih =>
      simp only [List.foldl_cons]
      rw [ih (fun x hx => h x (List.mem_cons_of_mem _ hx)),
        storeGet_applyEff_ne (h e (List.mem_cons_self _ _)) s]

/-- Eliminate membership of an upsert effect in the staged list: it
comes from a cloud task not under a tombstone that is either new
locally or strictly newer than the local copy. -/
theorem upsert_mem_elim {tomb : List String} {lcl cloud : List Task}
    {t : Task} (h : MergeEff.upsert t ∈ mergeEffects tomb lcl cloud) :
    t ∈ cloud ∧ tomb.contains t.id = false ∧
      (storeGet lcl t.id = none ∨
        ∃ l, storeGet lcl t.id = some l ∧ l.updatedAt < t.updatedAt) := by
  unfold mergeEffects at h
  rcases List.mem_append.1 h with h1 | h2
  · obtain ⟨c, hc, he⟩ := List.mem_filterMap.1 h1
    split at he
    · exact absurd he (by simp)
    · rename_i htb
      split at he
      · rename_i hsg
        have hct : c = t := by
          injection he with he'
          injection he'
        subst hct
        exact ⟨hc, by simpa using htb, Or.inl hsg⟩
      · rename_i l hsg
        split at he
        · rename_i hlt
          have hct : c = t := by
            injection he with he'
            injection he'
          subst hct
          exact ⟨hc, by simpa using htb, Or.inr ⟨l, hsg, hlt⟩⟩
        · exact absurd he (by simp)
  · obtain ⟨l, _, he⟩ := List.mem_filterMap.1 h2
    split at he
    · exact absurd he (by simp)
    · exact absurd he (by simp)

/-- Eliminate membership of a delete effect in the staged list: its id
belongs to a local task absent from the cloud snapshot. -/
theorem del_mem_elim {tomb : List String} {lcl cloud : List Task}
    {i : String} (h : MergeEff.del i ∈ mergeEffects tomb lcl cloud) :
    (∃ l ∈ lcl, l.id = i) ∧ cloud.any (fun c => c.id = i) = false := by
  unfold mergeEffects at h
  rcases List.mem_append.1 h with h1 | h2
  · obtain ⟨c, _, he⟩ := List.mem_filterMap.1 h1
    split at he
    · exact absurd he (by simp)
    · split at he
      · exact absurd he (by simp)
      · split at he
        · exact absurd he (by simp)
        · exact absurd he (by simp)
  · obtain ⟨l, hl, he⟩ := List.mem_filterMap.1 h2
    split at he
    · exact absurd he (by simp)
    · rename_i hcl
      have hid : l.id = i := by
        injection he with he'
        injection he'
      subst hid
      exact ⟨⟨l, hl, rfl⟩, by simpa using hcl⟩

/-- Introduce a staged upsert: a cloud task present locally, not under
a tombstone, with a strictly newer timestamp, is staged. -/
theorem upsert_mem_intro {tomb : List String} {lcl cloud : List Task}
    {c l : Task} (hc : c ∈ cloud) (ht : tomb.contains c.id = false)
    (hl : storeGet lcl c.id = some l) (hlt : l.updatedAt < c.updatedAt) :
    MergeEff.upsert c ∈ mergeEffects tomb lcl cloud := by
  unfold mergeEffects
  refine List.mem_append.2 (Or.inl (List.mem_filterMap.2 ⟨c, hc, ?_⟩))
  rw [if_neg (by rw [ht]; simp), hl]
  show (if l.updatedAt < c.updatedAt then some (MergeEff.upsert c)
        else none) = some (MergeEff.upsert c)
  rw [if_pos hlt]

/-- When a cloud task has a local copy that is same-or-newer and the
cloud snapshot has no duplicate ids, no staged effect writes to that
id. -/
theorem mergeEffects_untouched {tomb : List String} {lcl cloud : List Task}
    {c l : Task} (hc : c ∈ cloud) (hl : storeGet lcl c.id = some l)
    (hge : ¬ l.updatedAt < c.updatedAt)
    (hnd : (cloud.map Task.id).Nodup) :
    ∀ e ∈ mergeEffects tomb lcl cloud, e.target ≠ c.id := by
  intro e he
  cases e with
  | upsert t =>
      simp only [MergeEff.target]
      intro hti
      obtain ⟨htc, _, hcase⟩ := upsert_mem_elim he
      have hct : t = c := List.inj_on_of_nodup_map hnd htc hc hti
      subst hct
      rcases hcase with hnone | ⟨l', hsome, hlt⟩
      · rw [hl] at hnone
        cases hnone
      · rw [hl] at hsome
        injection hsome with h'
        rw [← h'] at hlt
        exact hge hlt
  | del j =>
      simp only [MergeEff.target]
      intro hji
      subst hji
      obtain ⟨_, habs⟩ := del_mem_elim he
      have hany : (cloud.any fun x => decide (x.id = c.id)) = true := by
        simp only [List.any_eq_true]
        exact ⟨c, hc, by simp⟩
      rw [hany] at habs
      exact Bool.noConfusion habs

/-- The tombstone set always contains an id just added to it. -/
theorem tombAdd_contains (i : String) (tomb : List String) :
    (tombAdd i tomb).contains i = true := by
  unfold tombAdd
  by_cases h : tomb.contains i
  · rwa [if_pos h]
  · rw [if_neg h]
    simp

/-- C1 (confirmed).  For a remote record whose id is present locally
and not under a tombstone, the merge stages an upsert of the remote
version if and only if the remote `updated_at` is strictly greater than
the local one; with equal timestamps no effect touches the id, so the
local version is still what the store returns after the merge. -/
theorem mergeCloudTasks_lww_strict (tomb : List String)
    (lcl cloud : List Task) (c l : Task) (hc : c ∈ cloud)
    (hl : storeGet lcl c.id = some l) (ht : tomb.contains c.id = false)
    (hnd : (cloud.map Task.id).Nodup) :
    (MergeEff.upsert c ∈ mergeEffects tomb lcl cloud ↔
      l.updatedAt < c.updatedAt) ∧
    (l.updatedAt = c.updatedAt →
      storeGet (mergeCloudTasks tomb lcl cloud) c.id = some l) := by
  constructor
  · constructor
    · intro h
      obtain ⟨_, _, hcase⟩ := upsert_mem_elim h
      rcases hcase with hnone | ⟨l', hsome, hlt⟩
      · rw [hl] at hnone
        cases hnone
      · rw [hl] at hsome
        injection hsome with h'
        rw [← h'] at hlt
        exact hlt
    · intro hlt
      exact upsert_mem_intro hc ht hl hlt
  · intro heq
    unfold mergeCloudTasks
    rw [storeGet_foldl_untouched _
      (mergeEffects_untouched hc hl (by omega) hnd) lcl]
    exact hl

/-- Concrete records used by witnesses: a stale local copy of "A" and
two cloud versions. -/
def tA1 : Task := ⟨"A", 1, "old"⟩

def tA2 : Task := ⟨"A", 2, "new"⟩

def tA1' : Task := ⟨"A", 1, "tie"⟩

/-- Witness for C1 at a concrete input: local "A"@1, cloud "A"@2. -/
theorem mergeCloudTasks_lww_strict_witness :
    (MergeEff.upsert tA2 ∈ mergeEffects [] [tA1] [tA2] ↔
      tA1.updatedAt < tA2.updatedAt) ∧
    (tA1.updatedAt = tA2.updatedAt →
      storeGet (mergeCloudTasks [] [tA1] [tA2]) tA2.id = some tA1) :=
  mergeCloudTasks_lww_strict [] [tA1] [tA2] tA2 tA1 (by decide)
    (by decide) (by decide) (by decide)

/-- C2 (confirmed).  An id in the tombstone set is never the target of
a staged upsert, whatever the remote snapshot contains; and enqueueing
a delete through `queueOperation` puts the id into the tombstone set
(whether or not the durable enqueue itself succeeds). -/
theorem tombstone_precedence (tomb : List String) (lcl cloud : List Task)
    (i : String) (hm : tomb.contains i = true)
    (q : QueueStore) (task : Option Task) (now : Nat) :
    (∀ t : Task, MergeEff.upsert t ∈ mergeEffects tomb lcl cloud →
      t.id ≠ i) ∧
    (queueOperation tomb q .delete i task now).tombstones.contains i
      = true := by
  constructor
  · intro t h hti
    obtain ⟨_, hcf, _⟩ := upsert_mem_elim h
    rw [hti] at hcf
    rw [hm] at hcf
    exact Bool.noConfusion hcf
  · simp only [queueOperation]
    cases addOperation q ⟨.delete, i, task, now⟩ with
    | ok p => simpa using tombAdd_contains i tomb
    | error m => simpa using tombAdd_contains i tomb

/-- Witness for C2 at a concrete input: tombstone over "A", cloud still
carrying "A"@2, and a delete of "B" enqueued on an open store. -/
theorem tombstone_precedence_witness :
    (∀ t : Task, MergeEff.upsert t ∈ mergeEffects ["A"] [] [tA2] →
      t.id ≠ "A") ∧
    (queueOperation ["A"] ⟨true, [], 0⟩ .delete "B" none 7).tombstones.contains "B"
      = true :=
  tombstone_precedence ["A"] [] [tA2] "A" (by decide) ⟨true, [], 0⟩ none 7

/-- The save operation pending for "A" in the C3 counterexample. -/
def saveOpA : Operation := ⟨.save, "A", some tA1, 0⟩

/-- C3 counterexample.  A local record with a pending save operation in
the queue, absent from the remote snapshot, IS deleted by the merge:
`mergeCloudTasks` never consults the operation queue.  Here the queue
holds `save A`, the local store holds "A", the cloud snapshot is empty,
yet the merge stages `DB.deleteTask("A")` and afterwards the local
store no longer contains "A". -/
theorem merge_deletes_pending_save_counterexample :
    (∃ e ∈ getAllOperations ⟨true, [⟨0, saveOpA⟩], 1⟩,
      e.op.type = .save ∧ e.op.taskId = tA1.id) ∧
    tA1 ∈ [tA1] ∧
    (([] : List Task).any (fun c => c.id = tA1.id)) = false ∧
    MergeEff.del tA1.id ∈ mergeEffects [] [tA1] [] ∧
    storeGet (mergeCloudTasks [] [tA1] []) tA1.id = none := by
  decide

/-- C3 amended.  The merge stages a local deletion for every local
record whose id is absent from the remote snapshot, unconditionally —
in particular regardless of any pending save in the operation queue. -/
theorem mergeCloudTasks_deletes_absent (tomb : List String)
    (lcl cloud : List Task) (l : Task) (hl : l ∈ lcl)
    (habs : (cloud.any (fun c => c.id = l.id)) = false) :
    MergeEff.del l.id ∈ mergeEffects tomb lcl cloud := by
  unfold mergeEffects
  refine List.mem_append.2 (Or.inr (List.mem_filterMap.2 ⟨l, hl, ?_⟩))
  rw [if_neg (by simp [habs])]

/-- Witness for the amended C3 at a concrete input. -/
theorem mergeCloudTasks_deletes_absent_witness :
    MergeEff.del tA1.id ∈ mergeEffects [] [tA1] [⟨"B", 2, "b"⟩] :=
  mergeCloudTasks_deletes_absent [] [tA1] [⟨"B", 2, "b"⟩] tA1
    (by decide) (by decide)

/-! ### Lemmas about the replay pass -/

theorem removeOperation_dbOpen (q : QueueStore) (i : Nat) :
    (removeOperation q i).dbOpen = q.dbOpen := by
  unfold removeOperation
  split <;> rfl

theorem mem_of_mem_removeOperation {q : QueueStore} {i : Nat}
    {en : QueueEntry} (h : en ∈ (removeOperation q i).entries) :
    en ∈ q.entries := by
  unfold removeOperation at h
  split at h
  · exact List.mem_of_mem_filter h
  · exact h

theorem mem_removeOperation_of_ne {q : QueueStore} {i : Nat}
    {en : QueueEntry} (h : en ∈ q.entries)
    (hne : en.id ≠ i) : en ∈ (removeOperation q i).entries := by
  unfold removeOperation
  split
  · exact List.mem_filter.2 ⟨h, by simp [hne]⟩
  · exact h

theorem not_mem_removeOperation_self {q : QueueStore} {en : QueueEntry}
    (hdb : q.dbOpen = true) : en ∉ (removeOperation q en.id).entries := by
  unfold removeOperation
  rw [if_pos hdb]
  intro h
  have := (List.mem_filter.1 h).2
  simp at this

theorem tombErase_contains_of_ne {j i : String} (hne : j ≠ i)
    {tomb : List String} (h : tomb.contains i = true) :
    (tombErase j tomb).contains i = true := by
  unfold tombErase
  refine List.elem_iff.2 ?_
  exact List.mem_filter.2 ⟨List.elem_iff.1 h, by simp [Ne.symm hne]⟩

/-- The state after one loop iteration, with `firebaseDb` available:
on a confirmed remote call remove the entry (and erase the tombstone
for a delete), otherwise leave the state unchanged. -/
def stepState (oracle : Nat → Bool) (st : EngineState) (e : QueueEntry) :
    EngineState :=
  if opSucceeds oracle e then
    { st with
        tombstones :=
          if e.op.type = .delete then tombErase e.op.taskId st.tombstones
          else st.tombstones,
        queue := removeOperation st.queue e.id }
  else st

/-- With `firebaseDb` available, one loop iteration is `stepState` and
attempts exactly the remote call of its operation. -/
theorem runOp_eq (oracle : Nat → Bool) (st : EngineState) (e : QueueEntry)
    (hfb : st.firebaseReady = true) :
    runOp oracle st e = (stepState oracle st e, (opCall e.op).toList) := by
  unfold runOp stepState opSucceeds opCall
  cases hty : e.op.type with
  | save =>
      cases htk : e.op.task with
      | none => simp [syncTaskToCloud, hfb, htk]
      | some t =>
          cases hok : oracle e.id <;>
            simp [syncTaskToCloud, hfb, htk, hok]
  | delete =>
      cases hok : oracle e.id <;>
        simp [deleteTaskFromCloud, hfb, hok]

theorem stepState_flags (oracle : Nat → Bool) (st : EngineState)
    (e : QueueEntry) :
    (stepState oracle st e).isOnline = st.isOnline ∧
    (stepState oracle st e).isSyncing = st.isSyncing ∧
    (stepState oracle st e).firebaseReady = st.firebaseReady ∧
    (stepState oracle st e).queue.dbOpen = st.queue.dbOpen := by
  unfold stepState
  split <;> simp [removeOperation_dbOpen]

/-- The attempted remote calls of a drain, in snapshot order: one per
entry, except that a save without a payload throws before reaching the
remote. -/
theorem runAll_calls (oracle : Nat → Bool) (es : List QueueEntry) :
    ∀ st : EngineState, st.firebaseReady = true →
      (runAll oracle st es).2 = es.filterMap (fun e => opCall e.op) := by
  induction es with
  | nil => intro st _; rfl
  | cons e es ih =>
      intro st hfb
      show (runOp oracle st e).2 ++ (runAll oracle (runOp oracle st e).1 es).2
          = _
      rw [runOp_eq oracle st e hfb]
      rw [ih _ (by rw [(stepState_flags oracle st e).2.2.1]; exact hfb)]
      cases h : opCall e.op with
      | none => simp [List.filterMap_cons, h]
      | some cll => simp [List.filterMap_cons, h]

theorem runAll_flags (oracle : Nat → Bool) (es : List QueueEntry) :
    ∀ st : EngineState, st.firebaseReady = true →
      (runAll oracle st es).1.firebaseReady = true ∧
      (runAll oracle st es).1.queue.dbOpen = st.queue.dbOpen := by
  induction es with
  | nil => intro st hfb; exact ⟨hfb, rfl⟩
  | cons e es ih =>
      intro st hfb
      show (runAll oracle (runOp oracle st e).1 es).1.firebaseReady = true ∧
        (runAll oracle (runOp oracle st e).1 es).1.queue.dbOpen = _
      rw [runOp_eq oracle st e hfb]
      obtain ⟨-, -, h3, h4⟩ := stepState_flags oracle st e
      obtain ⟨g1, g2⟩ := ih (stepState oracle st e) (by rw [h3]; exact hfb)
      exact ⟨g1, by rw [g2, h4]⟩

/-- A drain never adds queue entries. -/
theorem runAll_mem_subset (oracle : Nat → Bool) (es : List QueueEntry) :
    ∀ st : EngineState, st.firebaseReady = true →
      ∀ en : QueueEntry, en ∈ (runAll oracle st es).1.queue.entries →
        en ∈ st.queue.entries := by
  induction es with
  | nil => intro st _ en h; exact h
  | cons e es ih =>
      intro st hfb en h
      replace h : en ∈ (runAll oracle (runOp oracle st e).1 es).1.queue.entries := h
      rw [runOp_eq oracle st e hfb] at h
      obtain ⟨-, -, h3, -⟩ := stepState_flags oracle st e
      have h' := ih (stepState oracle st e) (by rw [h3]; exact hfb) en h
      unfold stepState at h'
      split at h'
      · exact mem_of_mem_removeOperation h'
      · exact h'

/-- An entry gone from the queue after the drain was removed by some
successfully confirmed entry of the snapshot with the same key. -/
theorem runAll_removed_succeeds (oracle : Nat → Bool) (es : List QueueEntry) :
    ∀ st : EngineState, st.firebaseReady = true →
      ∀ en : QueueEntry, en ∈ st.queue.entries →
        en ∉ (runAll oracle st es).1.queue.entries →
        ∃ e ∈ es, opSucceeds oracle e = true ∧ e.id = en.id := by
  induction es with
  | nil => intro st _ en hmem hnot; exact absurd hmem hnot
  | cons e es ih =>
      intro st hfb en hmem hnot
      replace hnot : en ∉ (runAll oracle (runOp oracle st e).1 es).1.queue.entries := hnot
      rw [runOp_eq oracle st e hfb] at hnot
      obtain ⟨-, -, h3, -⟩ := stepState_flags oracle st e
      by_cases hmem1 : en ∈ (stepState oracle st e).queue.entries
      · obtain ⟨f, hf, hsf, hid⟩ :=
          ih (stepState oracle st e) (by rw [h3]; exact hfb) en hmem1 hnot
        exact ⟨f, List.mem_cons_of_mem _ hf, hsf, hid⟩
      · unfold stepState at hmem1
        split at hmem1
        · rename_i hsucc
          by_cases hid : en.id = e.id
          · exact ⟨e, List.mem_cons_self _ _, hsucc, hid.symm⟩
          · exact absurd (mem_removeOperation_of_ne hmem hid) hmem1
        · exact absurd hmem hmem1

/-- An entry of the snapshot whose remote call is confirmed is removed
from the queue by the drain. -/
theorem runAll_success_removed (oracle : Nat → Bool) (es : List QueueEntry) :
    ∀ st : EngineState, st.firebaseReady = true →
      st.queue.dbOpen = true →
      ∀ e ∈ es, opSucceeds oracle e = true →
        e ∉ (runAll oracle st es).1.queue.entries := by
  induction es with
  | nil => intro st _ _ e he; exact absurd he (List.not_mem_nil e)
  | cons f es ih =>
      intro st hfb hdb e he hsucc
      show e ∉ (runAll oracle (runOp oracle st f).1 es).1.queue.entries
      rw [runOp_eq oracle st f hfb]
      obtain ⟨-, -, h3, h4⟩ := stepState_flags oracle st f
      have hfb1 : (stepState oracle st f).firebaseReady = true := by
        rw [h3]; exact hfb
      have hdb1 : (stepState oracle st f).queue.dbOpen = true := by
        rw [h4]; exact hdb
      rcases List.mem_cons.1 he with hef | hes
      · subst hef
        intro hmem
        have hm1 := runAll_mem_subset oracle es _ hfb1 e hmem
        unfold stepState at hm1
        rw [if_pos hsucc] at hm1
        exact not_mem_removeOperation_self hdb hm1
      · exact ih _ hfb1 hdb1 e hes hsucc

/-- An entry whose key no successfully confirmed snapshot entry shares
survives the drain. -/
theorem runAll_stays (oracle : Nat → Bool) (es : List QueueEntry) :
    ∀ st : EngineState, st.firebaseReady = true →
      ∀ en : QueueEntry, en ∈ st.queue.entries →
        (∀ e ∈ es, opSucceeds oracle e = true → e.id ≠ en.id) →
        en ∈ (runAll oracle st es).1.queue.entries := by
  induction es with
  | nil => intro st _ en h _; exact h
  | cons f es ih =>
      intro st hfb en hmem hno
      show en ∈ (runAll oracle (runOp oracle st f).1 es).1.queue.entries
      rw [runOp_eq oracle st f hfb]
      obtain ⟨-, -, h3, -⟩ := stepState_flags oracle st f
      have hmem1 : en ∈ (stepState oracle st f).queue.entries := by
        unfold stepState
        split
        · rename_i hsucc
          exact mem_removeOperation_of_ne hmem
            (Ne.symm (hno f (List.mem_cons_self _ _) hsucc))
        · exact hmem
      exact ih _ (by rw [h3]; exact hfb) en hmem1
        (fun e hee hs => hno e (List.mem_cons_of_mem _ hee) hs)

/-- A tombstone whose record no successfully confirmed delete of the
snapshot targets survives the drain. -/
theorem runAll_tombstone (oracle : Nat → Bool) (es : List QueueEntry) :
    ∀ st : EngineState, st.firebaseReady = true →
      ∀ i : String, st.tombstones.contains i = true →
        (∀ e ∈ es, e.op.type = .delete → opSucceeds oracle e = true →
          e.op.taskId ≠ i) →
        (runAll oracle st es).1.tombstones.contains i = true := by
  induction es with
  | nil => intro st _ i h _; exact h
  | cons f es ih =>
      intro st hfb i h hno
      show (runAll oracle (runOp oracle st f).1 es).1.tombstones.contains i
          = true
      rw [runOp_eq oracle st f hfb]
      obtain ⟨-, -, h3, -⟩ := stepState_flags oracle st f
      have h1 : (stepState oracle st f).tombstones.contains i = true := by
        unfold stepState
        split
        · rename_i hsucc
          show (if f.op.type = .delete then
              tombErase f.op.taskId st.tombstones
            else st.tombstones).contains i = true
          split
          · rename_i hty
            exact tombErase_contains_of_ne
              (hno f (List.mem_cons_self _ _) hty hsucc) h
          · exact h
        · exact h
      exact ih _ (by rw [h3]; exact hfb) i h1
        (fun e hee => hno e (List.mem_cons_of_mem _ hee))

/-- A replay attempt while offline, mid-pass, or without the remote
client is a complete no-op: same state, no events, no remote calls. -/
theorem processQueue_noop_helper (st : EngineState) (oracle : Nat → Bool)
    (h : st.isOnline = false ∨ st.isSyncing = true ∨
      st.firebaseReady = false) :
    processQueue st oracle = ⟨st, [], []⟩ := by
  rcases h with h | h | h
  · simp [processQueue, h]
  · by_cases hon : st.isOnline <;> simp [processQueue, h, hon]
  · by_cases hon : st.isOnline <;> by_cases hsy : st.isSyncing <;>
      simp [processQueue, h, hon, hsy]

/-- The shape of a pass that actually runs (online, idle, remote
available): start/complete events around a drain of the snapshot. -/
theorem processQueue_run (st : EngineState) (oracle : Nat → Bool)
    (hon : st.isOnline = true) (hsy : st.isSyncing = false)
    (hfb : st.firebaseReady = true) :
    processQueue st oracle =
      if (getAllOperations st.queue).isEmpty then
        ⟨{ st with isSyncing := false },
         [.syncStarted, .syncCompleted 0], []⟩
      else
        ⟨{ (runAll oracle { st with isSyncing := true }
              (getAllOperations st.queue)).1 with isSyncing := false },
         [.syncStarted,
          .syncCompleted (getCount (runAll oracle
            { st with isSyncing := true }
            (getAllOperations st.queue)).1.queue)],
         (runAll oracle { st with isSyncing := true }
           (getAllOperations st.queue)).2⟩ := by
  unfold processQueue
  rw [hon, hsy, hfb]
  rfl

theorem enqueueAll_open (ops : List Operation) :
    ∀ (es : List QueueEntry) (n : Nat),
      enqueueAll ⟨true, es, n⟩ ops =
        ⟨true, es ++ numberFrom n ops, n + ops.length⟩ := by
  induction ops with
  | nil => intro es n; simp [enqueueAll, numberFrom]
  | cons op ops ih =>
      intro es n
      show enqueueAll ⟨true, es ++ [⟨n, op⟩], n + 1⟩ ops = _
      rw [ih]
      congr 1
      · simp [numberFrom]
      · simp [numberFrom]
        omega

theorem numberFrom_map_op (ops : List Operation) :
    ∀ n : Nat, (numberFrom n ops).map QueueEntry.op = ops := by
  induction ops with
  | nil => intro n; rfl
  | cons op ops ih => intro n; simp [numberFrom, ih]

theorem numberFrom_lb (ops : List Operation) :
    ∀ n : Nat, ∀ e ∈ numberFrom n ops, n ≤ e.id := by
  induction ops with
  | nil => intro n e he; cases he
  | cons op ops ih =>
      intro n e he
      rcases List.mem_cons.1 he with rfl | h
      · exact Nat.le_refl n
      · exact Nat.le_of_succ_le (ih (n + 1) e h)

/-- Auto-incremented keys come back in strictly ascending order. -/
theorem numberFrom_ids_sorted (ops : List Operation) :
    ∀ n : Nat, ((numberFrom n ops).map QueueEntry.id).Pairwise (· < ·) := by
  induction ops with
  | nil => intro n; exact List.Pairwise.nil
  | cons op ops ih =>
      intro n
      simp only [numberFrom, List.map_cons]
      refine List.Pairwise.cons ?_ (ih (n + 1))
      intro b hb
      obtain ⟨e, he, rfl⟩ := List.mem_map.1 hb
      exact Nat.lt_of_succ_le (numberFrom_lb ops (n + 1) e he)

theorem numberFrom_filterMap_calls (ops : List Operation) :
    ∀ n : Nat,
      (numberFrom n ops).filterMap (fun e => opCall e.op) =
        ops.filterMap opCall := by
  induction ops with
  | nil => intro n; rfl
  | cons op ops ih =>
      intro n
      cases h : opCall op with
      | none => simp [numberFrom, List.filterMap_cons, h, ih (n + 1)]
      | some cll => simp [numberFrom, List.filterMap_cons, h, ih (n + 1)]

theorem filterMap_opCall_length (ops : List Operation)
    (hwf : ∀ op ∈ ops, op.type = .save → op.task.isSome = true) :
    (ops.filterMap opCall).length = ops.length := by
  induction ops with
  | nil => rfl
  | cons op ops ih =>
      obtain ⟨cll, hc⟩ : ∃ cll, opCall op = some cll := by
        unfold opCall
        cases hty : op.type with
        | save =>
            cases htk : op.task with
            | none =>
                have := hwf op (List.mem_cons_self _ _) hty
                rw [htk] at this
                cases this
            | some t => exact ⟨.write t, rfl⟩
        | delete => exact ⟨.remove op.taskId, rfl⟩
      simp [List.filterMap_cons, hc,
        ih (fun o ho => hwf o (List.mem_cons_of_mem _ ho))]

theorem opSucceeds_allTrue {e : QueueEntry}
    (hwf : e.op.type = .save → e.op.task.isSome = true) :
    opSucceeds (fun _ => true) e = true := by
  unfold opSucceeds
  cases hty : e.op.type with
  | save => simp [hwf hty]
  | delete => rfl

/-- C4 (confirmed).  Enqueue any sequence of (well-formed) operations
into a fresh open queue store: the queue read returns them under
strictly ascending auto-incremented keys, in enqueue order, and a
replay pass in which every remote call succeeds attempts exactly one
remote call per operation, in that same order, and empties the
queue. -/
theorem processQueue_order (ops : List Operation) (T : List String)
    (hwf : ∀ op ∈ ops, op.type = .save → op.task.isSome = true) :
    ((getAllOperations (enqueueAll ⟨true, [], 0⟩ ops)).map
        QueueEntry.id).Pairwise (· < ·) ∧
    (getAllOperations (enqueueAll ⟨true, [], 0⟩ ops)).map
        QueueEntry.op = ops ∧
    (processQueue ⟨true, false, true, T, enqueueAll ⟨true, [], 0⟩ ops⟩
        (fun _ => true)).calls = ops.filterMap opCall ∧
    (ops.filterMap opCall).length = ops.length ∧
    (processQueue ⟨true, false, true, T, enqueueAll ⟨true, [], 0⟩ ops⟩
        (fun _ => true)).state.queue.entries = [] := by
  have hq : enqueueAll ⟨true, [], 0⟩ ops =
      ⟨true, numberFrom 0 ops, 0 + ops.length⟩ := by
    rw [enqueueAll_open]
    simp
  rw [hq]
  have hga : getAllOperations ⟨true, numberFrom 0 ops, 0 + ops.length⟩ =
      numberFrom 0 ops := rfl
  rw [hga]
  refine ⟨numberFrom_ids_sorted ops 0, numberFrom_map_op ops 0, ?_, ?_, ?_⟩
  · rw [processQueue_run _ _ rfl rfl rfl]
    by_cases hemp : (getAllOperations
        (⟨true, numberFrom 0 ops, 0 + ops.length⟩ : QueueStore)).isEmpty
    · rw [if_pos hemp]
      rw [hga, List.isEmpty_iff] at hemp
      have hops : ops = [] := by
        cases ops with
        | nil => rfl
        | cons a l => exact absurd hemp (by simp [numberFrom])
      simp [hops]
    · rw [if_neg hemp]
      rw [hga]
      rw [runAll_calls _ _ _ rfl]
      exact numberFrom_filterMap_calls ops 0
  · exact filterMap_opCall_length ops hwf
  · rw [processQueue_run _ _ rfl rfl rfl]
    by_cases hemp : (getAllOperations
        (⟨true, numberFrom 0 ops, 0 + ops.length⟩ : QueueStore)).isEmpty
    · rw [if_pos hemp]
      rw [hga, List.isEmpty_iff] at hemp
      exact hemp
    · rw [if_neg hemp]
      refine List.eq_nil_iff_forall_not_mem.2 (fun en hmem => ?_)
      have hsub := runAll_mem_subset (fun _ => true)
        (getAllOperations ⟨true, numberFrom 0 ops, 0 + ops.length⟩)
        _ rfl en hmem
      have hine : en ∈ numberFrom 0 ops := hsub
      have hop : en.op ∈ ops := by
        rw [← numberFrom_map_op ops 0]
        exact List.mem_map_of_mem QueueEntry.op hine
      have hsucc : opSucceeds (fun _ => true) en = true :=
        opSucceeds_allTrue (fun h => hwf en.op hop h)
      exact runAll_success_removed (fun _ => true) _ _ rfl rfl en hine
        hsucc hmem

/-- The operations of the C4/C5 witnesses: save "A", delete "B". -/
def opsW : List Operation := [⟨.save, "A", some tA1, 0⟩,
  ⟨.delete, "B", none, 1⟩]

/-- Witness for C4 at a concrete input. -/
theorem processQueue_order_witness :
    ((getAllOperations (enqueueAll ⟨true, [], 0⟩ opsW)).map
        QueueEntry.id).Pairwise (· < ·) ∧
    (getAllOperations (enqueueAll ⟨true, [], 0⟩ opsW)).map
        QueueEntry.op = opsW ∧
    (processQueue ⟨true, false, true, ["B"], enqueueAll ⟨true, [], 0⟩ opsW⟩
        (fun _ => true)).calls = opsW.filterMap opCall ∧
    (opsW.filterMap opCall).length = opsW.length ∧
    (processQueue ⟨true, false, true, ["B"], enqueueAll ⟨true, [], 0⟩ opsW⟩
        (fun _ => true)).state.queue.entries = [] :=
  processQueue_order opsW ["B"] (by decide)

/-- C5 (confirmed).  During one pass an individual remote failure is
isolated: the whole snapshot is still attempted in order (the trace
lists every entry's remote call), every confirmed entry is removed from
the queue, every failed entry remains, and a failed delete's tombstone
survives the pass (unless another snapshot entry that deletes the same
record is confirmed, which legitimately clears that record's
tombstone). -/
theorem processQueue_partial_failure (st : EngineState)
    (oracle : Nat → Bool) (hon : st.isOnline = true)
    (hsy : st.isSyncing = false) (hfb : st.firebaseReady = true)
    (hdb : st.queue.dbOpen = true)
    (hnd : (st.queue.entries.map QueueEntry.id).Nodup) :
    ((processQueue st oracle).calls =
      (getAllOperations st.queue).filterMap (fun e => opCall e.op)) ∧
    (∀ e ∈ getAllOperations st.queue, opSucceeds oracle e = true →
      e ∉ (processQueue st oracle).state.queue.entries) ∧
    (∀ e ∈ getAllOperations st.queue, opSucceeds oracle e = false →
      e ∈ (processQueue st oracle).state.queue.entries) ∧
    (∀ e ∈ getAllOperations st.queue, e.op.type = .delete →
      opSucceeds oracle e = false →
      (∀ f ∈ getAllOperations st.queue, f.op.type = .delete →
        f.op.taskId = e.op.taskId → opSucceeds oracle f = false) →
      st.tombstones.contains e.op.taskId = true →
      (processQueue st oracle).state.tombstones.contains e.op.taskId
        = true) := by
  have hga : getAllOperations st.queue = st.queue.entries := by
    unfold getAllOperations
    rw [if_pos hdb]
  rw [processQueue_run st oracle hon hsy hfb]
  by_cases hemp : (getAllOperations st.queue).isEmpty
  · rw [if_pos hemp]
    rw [List.isEmpty_iff] at hemp
    rw [hemp]
    exact ⟨rfl, fun e he => absurd he (List.not_mem_nil e),
      fun e he => absurd he (List.not_mem_nil e),
      fun e he => absurd he (List.not_mem_nil e)⟩
  · rw [if_neg hemp]
    refine ⟨runAll_calls oracle _ _ hfb, ?_, ?_, ?_⟩
    · intro e he hsucc
      exact runAll_success_removed oracle _
        { st with isSyncing := true } hfb hdb e he hsucc
    · intro e he hfail
      refine runAll_stays oracle _ { st with isSyncing := true } hfb e
        (by rw [← hga]; exact he) (fun f hf hsf hid => ?_)
      have hfe : f = e := List.inj_on_of_nodup_map hnd
        (by rw [← hga]; exact hf) (by rw [← hga]; exact he) hid
      rw [hfe] at hsf
      rw [hfail] at hsf
      exact Bool.noConfusion hsf
    · intro e he hty hfail hno htomb
      exact runAll_tombstone oracle _ { st with isSyncing := true } hfb
        e.op.taskId htomb
        (fun f hf hfty hsf hid => by
          have hc := hno f hf hfty hid
          rw [hsf] at hc
          exact Bool.noConfusion hc)

/-- The three-entry queue of the C5 witness: save "A" (key 1),
delete "B" (key 2), save "C" (key 3). -/
def stW5 : EngineState :=
  ⟨true, false, true, ["B"],
    ⟨true, [⟨1, ⟨.save, "A", some tA1, 0⟩⟩,
            ⟨2, ⟨.delete, "B", none, 1⟩⟩,
            ⟨3, ⟨.save, "C", some ⟨"C", 3, "c"⟩, 2⟩⟩], 4⟩⟩

/-- The C5 witness oracle: entry 2 (the delete of "B") fails, the
others succeed. -/
def oracleW5 : Nat → Bool := fun n => !(n == 2)

/-- Witness for C5 at a concrete input: the middle operation of a
three-operation queue fails. -/
theorem processQueue_partial_failure_witness :
    ((processQueue stW5 oracleW5).calls =
      (getAllOperations stW5.queue).filterMap (fun e => opCall e.op)) ∧
    (∀ e ∈ getAllOperations stW5.queue, opSucceeds oracleW5 e = true →
      e ∉ (processQueue stW5 oracleW5).state.queue.entries) ∧
    (∀ e ∈ getAllOperations stW5.queue, opSucceeds oracleW5 e = false →
      e ∈ (processQueue stW5 oracleW5).state.queue.entries) ∧
    (∀ e ∈ getAllOperations stW5.queue, e.op.type = .delete →
      opSucceeds oracleW5 e = false →
      (∀ f ∈ getAllOperations stW5.queue, f.op.type = .delete →
        f.op.taskId = e.op.taskId → opSucceeds oracleW5 f = false) →
      stW5.tombstones.contains e.op.taskId = true →
      (processQueue stW5 oracleW5).state.tombstones.contains e.op.taskId
        = true) :=
  processQueue_partial_failure stW5 oracleW5 rfl rfl rfl rfl (by decide)

/-- C6 (confirmed).  A replay request while a pass is in flight or
while offline returns immediately: the state (queue and tombstones
included) is unchanged, no event is emitted, no remote call is made. -/
theorem processQueue_noop (st : EngineState) (oracle : Nat → Bool)
    (h : st.isSyncing = true ∨ st.isOnline = false) :
    processQueue st oracle = ⟨st, [], []⟩ :=
  processQueue_noop_helper st oracle
    (h.elim (fun h1 => Or.inr (Or.inl h1)) Or.inl)

/-- The C6 witness state: a pass already in flight over a non-empty
queue. -/
def stW6 : EngineState :=
  ⟨true, true, true, ["B"], ⟨true, [⟨1, ⟨.delete, "B", none, 0⟩⟩], 2⟩⟩

/-- Witness for C6 at a concrete input. -/
theorem processQueue_noop_witness :
    processQueue stW6 (fun _ => true) = ⟨stW6, [], []⟩ :=
  processQueue_noop stW6 (fun _ => true) (Or.inl rfl)

/-- C7 (confirmed).  An entry of the queue snapshot is gone from the
queue after a pass only if the pass really ran against an available
remote client and that entry's own remote call was confirmed
successful; entries whose call failed, and passes in which the remote
was skipped, never remove anything. -/
theorem processQueue_remove_only_confirmed (st : EngineState)
    (oracle : Nat → Bool) (hdb : st.queue.dbOpen = true)
    (hnd : (st.queue.entries.map QueueEntry.id).Nodup)
    (e : QueueEntry) (he : e ∈ getAllOperations st.queue)
    (hgone : e ∉ (processQueue st oracle).state.queue.entries) :
    st.firebaseReady = true ∧ opSucceeds oracle e = true := by
  have hee : e ∈ st.queue.entries := by
    unfold getAllOperations at he
    rw [if_pos hdb] at he
    exact he
  by_cases hon : st.isOnline = true
  · by_cases hsy : st.isSyncing = false
    · by_cases hfb : st.firebaseReady = true
      · refine ⟨hfb, ?_⟩
        rw [processQueue_run st oracle hon hsy hfb] at hgone
        by_cases hemp : (getAllOperations st.queue).isEmpty
        · rw [if_pos hemp] at hgone
          exact absurd hee hgone
        · rw [if_neg hemp] at hgone
          obtain ⟨f, hf, hsf, hid⟩ := runAll_removed_succeeds oracle
            (getAllOperations st.queue) { st with isSyncing := true }
            hfb e hee hgone
          have hfee : f ∈ st.queue.entries := by
            unfold getAllOperations at hf
            rw [if_pos hdb] at hf
            exact hf
          have hfe : f = e := List.inj_on_of_nodup_map hnd hfee hee hid
          rw [← hfe]
          exact hsf
      · rw [processQueue_noop_helper st oracle
          (Or.inr (Or.inr (by simpa using hfb)))] at hgone
        exact absurd hee hgone
    · rw [processQueue_noop_helper st oracle
        (Or.inr (Or.inl (by simpa using hsy)))] at hgone
      exact absurd hee hgone
  · rw [processQueue_noop_helper st oracle
      (Or.inl (by simpa using hon))] at hgone
    exact absurd hee hgone

/-- Witness for C7 at a concrete input: the save of "A" is gone after
an all-success pass over `stW5`, so it was confirmed. -/
theorem processQueue_remove_only_confirmed_witness :
    stW5.firebaseReady = true ∧
    opSucceeds (fun _ => true) ⟨1, ⟨.save, "A", some tA1, 0⟩⟩ = true :=
  processQueue_remove_only_confirmed stW5 (fun _ => true) rfl (by decide)
    ⟨1, ⟨.save, "A", some tA1, 0⟩⟩ (by decide) (by decide)

/-- C8 counterexample.  With the queue store unavailable,
`queueOperation` — the enqueue path taken by every caller-initiated
mutation (`DB.saveTask` / `DB.removeTask` await it) — does not reject:
its try/catch swallows the `addOperation` rejection, so the call
resolves successfully, the failure surfacing only as a `sync:error`
event, and nothing is durably recorded. -/
theorem queueOperation_swallows_counterexample :
    (queueOperation [] ⟨false, [], 0⟩ .save "A" (some tA1) 0).outcome
      = .ok () ∧
    (queueOperation [] ⟨false, [], 0⟩ .save "A" (some tA1) 0).events
      = [.syncError "Queue store not ready"] ∧
    (queueOperation [] ⟨false, [], 0⟩ .save "A" (some tA1) 0).queue
      = ⟨false, [], 0⟩ :=
  ⟨rfl, rfl, rfl⟩

/-- C8 amended.  When the durable queue store is unavailable,
`OfflineQueue.addOperation` itself rejects with an error, but
`SyncEngine.queueOperation` catches that rejection and surfaces it as
a `sync:error` event while itself resolving successfully; the awaiting
caller of the enqueue path gets no rejection, only the event, and the
operation is not recorded. -/
theorem enqueue_error_surfaced_as_event (tomb : List String)
    (q : QueueStore) (ty : OpType) (taskId : String) (task : Option Task)
    (now : Nat) (hdb : q.dbOpen = false) :
    addOperation q ⟨ty, taskId, task, now⟩ =
      .error "Queue store not ready" ∧
    (queueOperation tomb q ty taskId task now).outcome = .ok () ∧
    (queueOperation tomb q ty taskId task now).events =
      [.syncError "Queue store not ready"] ∧
    (queueOperation tomb q ty taskId task now).queue = q := by
  have ha : addOperation q ⟨ty, taskId, task, now⟩ =
      .error "Queue store not ready" := by
    unfold addOperation
    rw [if_neg (by rw [hdb]; simp)]
  refine ⟨ha, ?_, ?_, ?_⟩ <;> simp only [queueOperation, ha]

/-- Witness for the amended C8 at a concrete input. -/
theorem enqueue_error_surfaced_as_event_witness :
    addOperation ⟨false, [], 0⟩ ⟨.delete, "B", none, 5⟩ =
      .error "Queue store not ready" ∧
    (queueOperation [] ⟨false, [], 0⟩ .delete "B" none 5).outcome
      = .ok () ∧
    (queueOperation [] ⟨false, [], 0⟩ .delete "B" none 5).events =
      [.syncError "Queue store not ready"] ∧
    (queueOperation [] ⟨false, [], 0⟩ .delete "B" none 5).queue
      = ⟨false, [], 0⟩ :=
  enqueue_error_surfaced_as_event [] ⟨false, [], 0⟩ .delete "B" none 5 rfl

/-- C9 counterexample.  The platform-event handlers emit
unconditionally: starting online, two consecutive platform `online`
events produce two consecutive `status-changed` notifications carrying
the same state — the notification stream is not deduplicated against
the last known state, so consecutive notifications can repeat a
state. -/
theorem statusChanged_duplicate_counterexample :
    statusVals (netRun true [.platformOnline, .platformOnline]).2
      = [true, true] ∧
    ¬ List.Chain' (· ≠ ·) [true, true] :=
  ⟨rfl, fun h => (List.chain'_cons.1 h).1 rfl⟩

/-- C9 amended.  Only the periodic re-check is deduplicated (it
synthesizes an event only when the sampled flag disagrees with the
last known state); platform events always emit.  Provided every
platform event reports a state different from the monitor's current
one (the platform fires only on genuine transitions), consecutive
notifications never carry the same state, and the first notification
differs from the start state. -/
theorem statusChanged_exact_of_proper (is : List NetInput) :
    ∀ st : Bool, properInputs st is = true →
      List.Chain' (· ≠ ·) (statusVals (netRun st is).2) ∧
      (∀ h : Bool, (statusVals (netRun st is).2).head? = some h →
        h ≠ st) := by
  induction is with
  | nil =>
      intro st _
      exact ⟨List.chain'_nil, fun h hh => by cases hh⟩
  | cons i is ih =>
      intro st hp
      cases i with
      | platformOnline =>
          have hst : st = false := by
            cases st
            · rfl
            · exact absurd hp (by simp [properInputs])
          have hp' : properInputs true is = true := by
            rw [hst] at hp
            simpa [properInputs] using hp
          obtain ⟨ih1, ih2⟩ := ih true hp'
          have hout : statusVals (netRun st (.platformOnline :: is)).2 =
              true :: statusVals (netRun true is).2 := rfl
          rw [hout]
          constructor
          · cases hv : statusVals (netRun true is).2 with
            | nil => simp
            | cons v vs =>
                rw [List.chain'_cons]
                refine ⟨Ne.symm (ih2 v (by rw [hv]; rfl)), ?_⟩
                rw [← hv]
                exact ih1
          · intro h hh
            injection hh with hh'
            rw [← hh', hst]
            simp
      | platformOffline =>
          have hst : st = true := by
            cases st
            · exact absurd hp (by simp [properInputs])
            · rfl
          have hp' : properInputs false is = true := by
            rw [hst] at hp
            simpa [properInputs] using hp
          obtain ⟨ih1, ih2⟩ := ih false hp'
          have hout : statusVals (netRun st (.platformOffline :: is)).2 =
              false :: statusVals (netRun false is).2 := rfl
          rw [hout]
          constructor
          · cases hv : statusVals (netRun false is).2 with
            | nil => simp
            | cons v vs =>
                rw [List.chain'_cons]
                refine ⟨Ne.symm (ih2 v (by rw [hv]; rfl)), ?_⟩
                rw [← hv]
                exact ih1
          · intro h hh
            injection hh with hh'
            rw [← hh', hst]
            simp
      | tick b =>
          have hp' : properInputs b is = true := by
            simpa [properInputs] using hp
          by_cases hbs : b = st
          · subst hbs
            have hout : statusVals (netRun b (.tick b :: is)).2 =
                statusVals (netRun b is).2 := by
              show statusVals ((netStep b (.tick b)).2 ++
                (netRun (netStep b (.tick b)).1 is).2) = _
              simp [netStep]
            rw [hout]
            exact ih b hp'
          · obtain ⟨ih1, ih2⟩ := ih b hp'
            have hout : statusVals (netRun st (.tick b :: is)).2 =
                b :: statusVals (netRun b is).2 := by
              show statusVals ((netStep st (.tick b)).2 ++
                (netRun (netStep st (.tick b)).1 is).2) = _
              simp [netStep, hbs, statusVals]
            rw [hout]
            constructor
            · cases hv : statusVals (netRun b is).2 with
              | nil => simp
              | cons v vs =>
                  rw [List.chain'_cons]
                  refine ⟨Ne.symm (ih2 v (by rw [hv]; rfl)), ?_⟩
                  rw [← hv]
                  exact ih1
            · intro h hh
              injection hh with hh'
              rw [← hh']
              exact hbs

/-- Witness for the amended C9 at a concrete input: offline start,
genuine online transition, one agreeing re-check, genuine offline
transition. -/
theorem statusChanged_exact_of_proper_witness :
    List.Chain' (· ≠ ·) (statusVals (netRun false
      [.platformOnline, .tick true, .platformOffline]).2) ∧
    (∀ h : Bool, (statusVals (netRun false
      [.platformOnline, .tick true, .platformOffline]).2).head? = some h →
      h ≠ false) :=
  statusChanged_exact_of_proper [.platformOnline, .tick true,
    .platformOffline] false (by decide)

/-- C10 (confirmed).  On an uninitialized queue store (`db` handle
null), `addOperation` rejects while `getAllOperations` resolves with
`[]` and `removeOperation`/`clear` resolve as silent no-ops leaving the
store untouched: reads and removals never fail, writes always do. -/
theorem uninitialized_queue_asymmetry (q : QueueStore) (op : Operation)
    (i : Nat) (hdb : q.dbOpen = false) :
    addOperation q op = .error "Queue store not ready" ∧
    getAllOperations q = [] ∧
    removeOperation q i = q ∧
    clear q = q := by
  refine ⟨?_, ?_, ?_, ?_⟩ <;>
    simp [addOperation, getAllOperations, removeOperation, clear, hdb]

/-- Witness for C10 at a concrete input. -/
theorem uninitialized_queue_asymmetry_witness :
    addOperation ⟨false, [], 0⟩ ⟨.save, "A", some tA1, 3⟩ =
      .error "Queue store not ready" ∧
    getAllOperations ⟨false, [], 0⟩ = [] ∧
    removeOperation ⟨false, [], 0⟩ 5 = ⟨false, [], 0⟩ ∧
    clear ⟨false, [], 0⟩ = ⟨false, [], 0⟩ :=
  uninitialized_queue_asymmetry ⟨false, [], 0⟩ ⟨.save, "A", some tA1, 3⟩
    5 rfl

end Sync


